import Mathlib

/-!
Verification of the Yao garbled-circuit protocol implementation
(`src/main.py`, `src/server.py`) against its design specification.

The repository ships the two driver files `main.py` and `server.py`; the
`yao`, `ot` and `util` modules they import are not part of the sources, so
the garbling, evaluation and oblivious-transfer internals are modelled from
the specification (sections 3, 4.1, 4.3), while everything present in the
two driver files (bundle construction, input collection, the CLI flag, the
listen loop, key-payload splitting) is embedded directly from the code.
-/

namespace Yao

/-- Boolean gate operators, from the spec data model: operator in
the set AND, OR, XOR, NOT. -/
inductive GateType where
  | AND
  | OR
  | XOR
  | NOT
deriving DecidableEq, Repr

/-- A gate: output wire id, operator, and the ordered list of input wire
ids (one for NOT, two otherwise). -/
structure Gate where
  id : Nat
  type : GateType
  ins : List Nat
deriving DecidableEq, Repr

/-- A circuit: wire partitions for the Garbler (alice), the Evaluator
(bob) and the outputs, plus the ordered gate list. -/
structure Circuit where
  cid : Nat
  alice : List Nat
  bob : List Nat
  out : List Nat
  gates : List Gate
deriving DecidableEq, Repr

/-- Semantic function of a two-input gate (NOT ignores its second
argument; the arity discipline is enforced by `wellFormed`). -/
def gateFun (t : GateType) (a b : Bool) : Bool :=
  match t with
  | .AND => a && b
  | .OR => a || b
  | .XOR => xor a b
  | .NOT => !a

/-- Plaintext denotation of a gate applied to the list of its input
values: NOT takes exactly one input, the binary operators exactly two. -/
def gateDenote (t : GateType) : List Bool → Option Bool
  | [a] => match t with
    | .NOT => some (!a)
    | _ => none
  | [a, b] => match t with
    | .NOT => none
    | _ => some (gateFun t a b)
  | _ => none

/-- Arity check from the spec data model: 1 input for NOT, 2 otherwise. -/
def arityOk (g : Gate) : Bool :=
  match g.type with
  | .NOT => g.ins.length == 1
  | _ => g.ins.length == 2

/-- Declared wires after processing a gate list, starting from the
declared-so-far accumulator. -/
def declare (ds : List Nat) : List Gate → List Nat
  | [] => ds
  | g :: gs => declare (g.id :: ds) gs

/-- Gate-list validity from the spec data model: every input wire of a
gate is declared before it (a circuit input or an earlier gate's output),
arities are respected, and no wire is written twice (single static
assignment).  A cyclic dependency or a dangling wire reference violates
the first condition. -/
def validGates (ds : List Nat) : List Gate → Bool
  | [] => true
  | g :: gs =>
      g.ins.all (fun w => ds.contains w) && arityOk g &&
        !(ds.contains g.id) && validGates (g.id :: ds) gs

/-- Well-formedness of a circuit: valid gate list starting from the
input wires, and every output wire declared. -/
def wellFormed (c : Circuit) : Bool :=
  validGates (c.alice ++ c.bob) c.gates &&
    c.out.all (fun w => (declare (c.alice ++ c.bob) c.gates).contains w)

/-- Read the values of a list of wires from a partial wire state. -/
def readAll {α : Type} (s : Nat → Option α) : List Nat → Option (List α)
  | [] => some []
  | w :: ws =>
    match s w, readAll s ws with
    | some v, some vs => some (v :: vs)
    | _, _ => none

/-- Functional update of a partial wire state. -/
def updateS {α : Type} (s : Nat → Option α) (w : Nat) (v : α) :
    Nat → Option α :=
  fun x => if x = w then some v else s x

/-- Initial plaintext wire state: Garbler-input wires read from A,
Evaluator-input wires from B. -/
def plainInit (c : Circuit) (A B : Nat → Bool) : Nat → Option Bool :=
  fun w =>
    if c.alice.contains w then some (A w)
    else if c.bob.contains w then some (B w)
    else none

/-- One step of plaintext evaluation: read the gate's inputs, apply the
gate denotation, record the output wire's value. -/
def plainStep (s : Nat → Option Bool) (g : Gate) : Nat → Option Bool :=
  match readAll s g.ins with
  | some vs =>
    match gateDenote g.type vs with
    | some v => updateS s g.id v
    | none => s
  | none => s

/-- Plaintext evaluation of a circuit on inputs A (Garbler) and B
(Evaluator): walk the gates in order, then read the output wires. -/
def evalPlain (c : Circuit) (A B : Nat → Bool) : List (Option Bool) :=
  c.out.map (c.gates.foldl plainStep (plainInit c A B))

/-- Ciphertext of a two-input garbled-table row.  Modelled from the spec:
double encryption binding the payload (output key, output external bit)
to both input wire keys. -/
structure Ct2 where
  k1 : Nat
  k2 : Nat
  okey : Nat
  ebit : Bool
deriving DecidableEq, Repr

/-- Ciphertext of a NOT-gate garbled-table row.  Modelled from the spec:
single encryption binding the payload to the one input wire key. -/
structure Ct1 where
  k : Nat
  okey : Nat
  ebit : Bool
deriving DecidableEq, Repr

/-- A garbled table: four rows indexed by the two input external bits for
a binary gate, two rows indexed by the single input external bit for NOT. -/
inductive GTable where
  | bin (t : Bool → Bool → Ct2)
  | un (t : Bool → Ct1)

/-- Decryption of a NOT-row ciphertext: succeeds exactly when the held
key matches the key the row was encrypted under. -/
def decode1 (k : Nat) (c : Ct1) : Option (Nat × Bool) :=
  if c.k = k then some (c.okey, c.ebit) else none

/-- Decryption of a binary-row ciphertext: succeeds exactly when both
held keys match the keys the row was encrypted under. -/
def decode2 (ka kb : Nat) (c : Ct2) : Option (Nat × Bool) :=
  if c.k1 = ka ∧ c.k2 = kb then some (c.okey, c.ebit) else none

/-- Modelled from the spec (4.1, `yao.GarbledCircuit` is absent from the
sources): the garbled table of one gate.  The row at external-bit index e
encrypts (output key for v, v XOR output pbit) under the input keys of
the semantic values whose external bits are e, where v is the gate's
semantic output for those values. -/
def garbleGate (keys : Nat → Bool → Nat) (pbits : Nat → Bool) (g : Gate) :
    GTable :=
  match g.type, g.ins with
  | .NOT, [a] =>
      .un (fun ea =>
        let va := xor ea (pbits a)
        let v := !va
        ⟨keys a va, keys g.id v, xor v (pbits g.id)⟩)
  | ty, [a, b] =>
      .bin (fun ea eb =>
        let va := xor ea (pbits a)
        let vb := xor eb (pbits b)
        let v := gateFun ty va vb
        ⟨keys a va, keys b vb, keys g.id v, xor v (pbits g.id)⟩)
  | _, _ => .un (fun _ => ⟨0, 0, false⟩)

/-- The single error the garbler raises, from the spec error taxonomy. -/
inductive GarbleError where
  | CircuitMalformed
deriving DecidableEq, Repr

/-- Modelled from the spec (4.1): garbling validates the circuit first
and fails with CircuitMalformed on a malformed circuit, producing no
tables; otherwise it produces one garbled table per gate, keyed by the
gate's output wire id. -/
def garble (keys : Nat → Bool → Nat) (pbits : Nat → Bool) (c : Circuit) :
    Except GarbleError (List (Nat × GTable)) :=
  if wellFormed c then
    .ok (c.gates.map (fun g => (g.id, garbleGate keys pbits g)))
  else
    .error .CircuitMalformed

/-- Initial garbled wire state held by the Evaluator: for each input wire
the (key, external bit) pair for the owner's bit — Garbler-input pairs are
handed over directly, Evaluator-input pairs arrive via OT; both have the
shape (key for v, pbit XOR v). -/
def ginit (keys : Nat → Bool → Nat) (pbits : Nat → Bool) (c : Circuit)
    (A B : Nat → Bool) : Nat → Option (Nat × Bool) :=
  fun w =>
    if c.alice.contains w then some (keys w (A w), xor (pbits w) (A w))
    else if c.bob.contains w then some (keys w (B w), xor (pbits w) (B w))
    else none

/-- Modelled from the spec (4.3): one step of oblivious evaluation — look
up the gate's table, index the row by the input external bits, decrypt
with the held input keys, record the recovered (key, external bit). -/
def gevalGate (tables : List (Nat × GTable))
    (s : Nat → Option (Nat × Bool)) (g : Gate) :
    Nat → Option (Nat × Bool) :=
  match tables.lookup g.id, readAll s g.ins with
  | some (.un t), some [(k, e)] =>
    match decode1 k (t e) with
    | some p => updateS s g.id p
    | none => s
  | some (.bin t), some [(ka, ea), (kb, eb)] =>
    match decode2 ka kb (t ea eb) with
    | some p => updateS s g.id p
    | none => s
  | _, _ => s

/-- Modelled from the spec (4.3, `yao.evaluate` is absent from the
sources): oblivious evaluation — walk the gates in order from the initial
(key, external bit) state, then decode each output wire as
value = external bit XOR pbit of the wire, using the transmitted
output pbits only. -/
def evaluate (c : Circuit) (tables : List (Nat × GTable))
    (pbitsOut : Nat → Option Bool) (init : Nat → Option (Nat × Bool)) :
    List (Option Bool) :=
  let s := c.gates.foldl (gevalGate tables) init
  c.out.map (fun w =>
    match s w, pbitsOut w with
    | some (_, e), some p => some (xor e p)
    | _, _ => none)

/-- Restriction of the permutation bits to the Output wires, as built by
`YaoGarbler.__init__` in main.py: `{w: self.pbits[w] for w in circuit["out"]}`. -/
def pbitsOutOf (pbits : Nat → Bool) (c : Circuit) : Nat → Option Bool :=
  fun w => if c.out.contains w then some (pbits w) else none

/-- The entry assembled by `YaoGarbler.__init__`: circuit, garbled tables,
all wire key pairs, all pbits, and the pbits restricted to the output
wires.  Garbling happens here, at construction time, before any message
is sent. -/
structure Entry where
  circuit : Circuit
  garbledTables : List (Nat × GTable)
  keys : Nat → Bool → Nat
  pbits : Nat → Bool
  pbitsOut : Nat → Option Bool

/-- Construction of the garbler's entry (`YaoGarbler.__init__`): garble
the circuit, keep the key material locally, restrict the pbits to the
output wires. -/
def mkEntry (keys : Nat → Bool → Nat) (pbits : Nat → Bool) (c : Circuit) :
    Except GarbleError Entry :=
  (garble keys pbits c).map
    (fun tbls => ⟨c, tbls, keys, pbits, pbitsOutOf pbits c⟩)

/-- The bundle Alice sends once per run (`Alice.start`): the `to_send`
dict holds exactly the circuit, the garbled tables and `pbits_out` —
no field for wire keys or for the pbits of non-output wires exists. -/
structure GarbledBundle where
  circuit : Circuit
  garbledTables : List (Nat × GTable)
  pbitsOut : Nat → Option Bool

/-- The projection `Alice.start` applies to the entry to build `to_send`. -/
def toSend (e : Entry) : GarbledBundle :=
  ⟨e.circuit, e.garbledTables, e.pbitsOut⟩

/-- Alice's flow up to the single protocol send: `__init__` garbles, then
`start` projects the entry into the bundle.  If garbling fails, no bundle
is ever produced. -/
def aliceRun (keys : Nat → Bool → Nat) (pbits : Nat → Bool) (c : Circuit) :
    Except GarbleError GarbledBundle :=
  (mkEntry keys pbits c).map toSend

/-- Wires declared strictly before gate position i: circuit inputs plus
the output wires of the earlier gates. -/
def declaredBefore (c : Circuit) (i : Nat) : List Nat :=
  c.alice ++ c.bob ++ (c.gates.take i).map Gate.id

/-- Demonstration circuit using every gate type at depth greater than 1:
wire 1 is Alice's, wire 2 is Bob's, gates 3 := AND(1,2), 4 := XOR(1,3),
5 := OR(2,4), 6 := NOT(5), output wire 6. -/
def demoC : Circuit :=
  ⟨7, [1], [2], [6],
    [⟨3, .AND, [1, 2]⟩, ⟨4, .XOR, [1, 3]⟩, ⟨5, .OR, [2, 4]⟩,
      ⟨6, .NOT, [5]⟩]⟩

/-- Concrete key material for the demonstration circuit. -/
def demoKeys : Nat → Bool → Nat := fun w b => 2 * w + (if b then 1 else 0)

/-- Concrete permutation bits for the demonstration circuit. -/
def demoPbits : Nat → Bool := fun w => w % 2 == 0

/-- The garbled tables of the demonstration circuit. -/
def demoTbls : List (Nat × GTable) :=
  demoC.gates.map (fun g => (g.id, garbleGate demoKeys demoPbits g))

/-- The entry built for the demonstration circuit. -/
def demoEntry : Entry :=
  ⟨demoC, demoTbls, demoKeys, demoPbits, pbitsOutOf demoPbits demoC⟩

/-- A malformed circuit: its single AND gate references the undeclared
wire 99. -/
def badC : Circuit := ⟨9, [1], [2], [3], [⟨3, .AND, [1, 99]⟩]⟩

/-- Parsed command-line arguments of main.py: the positional `party`
(restricted by argparse to alice or bob) and the
`--no-oblivious-transfer` flag. -/
structure Args where
  party : String
  noOT : Bool

/-- Command-line parsing as declared in main.py's argparse setup: one
positional argument chosen from alice and bob, plus the optional
store-true flag `--no-oblivious-transfer`. -/
def parseArgs (argv : List String) : Option Args :=
  match argv.filter (fun a => a ≠ "--no-oblivious-transfer") with
  | [p] =>
    if p = "alice" ∨ p = "bob" then
      some ⟨p, argv.contains "--no-oblivious-transfer"⟩
    else none
  | _ => none

/-- The `oblivious_transfer` argument the entry point of main.py actually
passes to `main`: the call is `main(args.party, oblivious_transfer=True)`,
a constant, ignoring the parsed arguments. -/
def otArgPassedToMain (_args : Args) : Bool := true

/-- The `enabled` flag `Alice.__init__` and `Bob.__init__` hand to
`ot.ObliviousTransfer`: the `oblivious_transfer` parameter of `main`
passed through unchanged. -/
def otEnabledFlag (obliviousTransfer : Bool) : Bool := obliviousTransfer

/-- Per-wire encrypted-bit pair from `Alice._get_encr_bits`:
`((key0, 0 ^ pbit), (key1, 1 ^ pbit))`. -/
def getEncrBits (pbit : Bool) (key0 key1 : Nat) :
    (Nat × Bool) × (Nat × Bool) :=
  ((key0, xor false pbit), (key1, xor true pbit))

/-- The b_keys table from `Alice.print`: iterate the keys dict and keep
exactly the wires lying in the circuit's bob partition, mapping each kept
key pair through `_get_encr_bits`. -/
def bKeysOf (keysL : List (Nat × (Nat × Nat))) (pbits : Nat → Bool)
    (bWires : List Nat) : List (Nat × ((Nat × Bool) × (Nat × Bool))) :=
  keysL.filterMap (fun e =>
    if bWires.contains e.1 then
      some (e.1, getEncrBits (pbits e.1) e.2.1 e.2.2)
    else none)

/-- Alice's own input table from `Alice.get_alice_inputs`: each of her
wires bound to `(keys[value], pbits[wire] ^ value)` for her chosen bit. -/
def aliceInputsOf (entryKeys : Nat → Nat × Nat) (pbits : Nat → Bool)
    (bits : Nat → Bool) (aWires : List Nat) : List (Nat × (Nat × Bool)) :=
  aWires.map (fun w =>
    (w, (cond (bits w) (entryKeys w).2 (entryKeys w).1,
      xor (pbits w) (bits w))))

/-- A wire payload on its way to the Evaluator: either handed over
directly in the clear, or delivered through the OT sub-protocol. -/
inductive Msg where
  | direct (w : Nat) (p : Nat × Bool)
  | viaOT (w : Nat) (pair : (Nat × Bool) × (Nat × Bool))

/-- Modelled from the spec (the ot module is absent from the sources):
`ot.get_result(a_inputs, b_keys)` hands every Garbler-input pair directly
to the Evaluator and runs the 1-out-of-2 OT sub-protocol on every entry
of the b_keys table, and on nothing else. -/
def getResultMsgs (aInputs : List (Nat × (Nat × Bool)))
    (bKeys : List (Nat × ((Nat × Bool) × (Nat × Bool)))) : List Msg :=
  aInputs.map (fun e => .direct e.1 e.2) ++
    bKeys.map (fun e => .viaOT e.1 e.2)

/-- The wires a message list routes through OT. -/
def otWires : List Msg → List Nat
  | [] => []
  | .viaOT w _ :: ms => w :: otWires ms
  | .direct _ _ :: ms => otWires ms

/-- The wires a message list hands over directly. -/
def directWires : List Msg → List Nat
  | [] => []
  | .viaOT _ _ :: ms => directWires ms
  | .direct w _ :: ms => w :: directWires ms

/-- An observable action of Bob's listen loop. -/
inductive BobAction where
  | ack (b : Bool)
  | evalSent (e : GarbledBundle)

/-- One iteration of the loop body of `Bob.listen`: acknowledge the
received bundle with True, then evaluate it and send the result. -/
def processEntry (e : GarbledBundle) : List BobAction :=
  [.ack true, .evalSent e]

/-- The action trace of `Bob.listen` over the bundles the socket yields,
processed strictly one at a time in arrival order. -/
def listenTrace (es : List GarbledBundle) : List BobAction :=
  es.foldl (fun acc e => acc ++ processEntry e) []

/-- One interactive read of the input loops in `get_alice_inputs` and
`get_bob_inputs`: keep prompting until the entered line parses as an int
(none models a ValueError) lying in the set 0, 1; every other entry is
rejected and re-prompted. -/
def readBit : List (Option Int) → Option (Int × List (Option Int))
  | [] => none
  | some v :: rest =>
    if v = 0 ∨ v = 1 then some (v, rest) else readBit rest
  | none :: rest => readBit rest

/-- Interactive input collection over a party's own wire list, threading
the remaining input stream through the per-wire retry loops. -/
def collectInputs (wires : List Nat) (stream : List (Option Int)) :
    Option (List (Nat × Int)) :=
  match wires with
  | [] => some []
  | w :: ws =>
    match readBit stream with
    | some (v, rest) => (collectInputs ws rest).map (fun m => (w, v) :: m)
    | none => none

/-- Key-pair reconstruction from `YaoRequestHandler.receive_garbled_data`
in server.py: `keys[wire] = (key_data[: n // 2], key_data[n // 2:])` with
n the payload length. -/
def splitKeyPayload (data : List Nat) : List Nat × List Nat :=
  (data.take (data.length / 2), data.drop (data.length / 2))

/-! Helper lemmas for the round-trip correctness proof. -/

lemma xor_cancel_right (p v : Bool) : xor (xor p v) p = v := by
  cases p <;> cases v <;> rfl

lemma xor_cancel_mid (p v : Bool) : xor p (xor v p) = v := by
  cases p <;> cases v <;> rfl

lemma arityOk_not (gid : Nat) (ins : List Nat) :
    arityOk ⟨gid, .NOT, ins⟩ = (ins.length == 1) := rfl

lemma arityOk_bin (gid : Nat) (ty : GateType) (ins : List Nat)
    (h : ty ≠ .NOT) : arityOk ⟨gid, ty, ins⟩ = (ins.length == 2) := by
  cases ty with
  | AND => rfl
  | OR => rfl
  | XOR => rfl
  | NOT => exact absurd rfl h

lemma gateDenote_pair (ty : GateType) (a b : Bool) (h : ty ≠ .NOT) :
    gateDenote ty [a, b] = some (gateFun ty a b) := by
  cases ty with
  | AND => rfl
  | OR => rfl
  | XOR => rfl
  | NOT => exact absurd rfl h

lemma garbleGate_pair (keys : Nat → Bool → Nat) (pbits : Nat → Bool)
    (gid : Nat) (ty : GateType) (a b : Nat) :
    garbleGate keys pbits ⟨gid, ty, [a, b]⟩ =
      .bin (fun ea eb =>
        let va := xor ea (pbits a)
        let vb := xor eb (pbits b)
        let v := gateFun ty va vb
        ⟨keys a va, keys b vb, keys gid v, xor v (pbits gid)⟩) := by
  cases ty <;> rfl

lemma garbleGate_not (keys : Nat → Bool → Nat) (pbits : Nat → Bool)
    (gid a : Nat) :
    garbleGate keys pbits ⟨gid, .NOT, [a]⟩ =
      .un (fun ea =>
        let va := xor ea (pbits a)
        let v := !va
        ⟨keys a va, keys gid v, xor v (pbits gid)⟩) := rfl

lemma validGates_id_not_mem (gs : List Gate) :
    ∀ ds : List Nat, validGates ds gs = true →
      ∀ g ∈ gs, ds.contains g.id = false := by
  induction gs with
  | nil =>
    intro ds _ g hg
    exact absurd hg (List.not_mem_nil g)
  | cons g0 gs ih =>
    intro ds hv g hg
    rw [validGates] at hv
    simp only [Bool.and_eq_true] at hv
    obtain ⟨⟨⟨_, _⟩, hnid⟩, hvt⟩ := hv
    rcases List.mem_cons.mp hg with rfl | hg'
    · simpa using hnid
    · have h := ih (g0.id :: ds) hvt g hg'
      simp only [List.contains_cons, Bool.or_eq_false_iff] at h
      exact h.2

lemma lookup_garbled (f : Gate → GTable) (gs : List Gate) :
    ∀ ds : List Nat, validGates ds gs = true →
      ∀ g ∈ gs,
        (gs.map (fun g' => (g'.id, f g'))).lookup g.id = some (f g) := by
  induction gs with
  | nil =>
    intro ds _ g hg
    exact absurd hg (List.not_mem_nil g)
  | cons g0 gs ih =>
    intro ds hv g hg
    rw [validGates] at hv
    simp only [Bool.and_eq_true] at hv
    obtain ⟨⟨⟨_, _⟩, _⟩, hvt⟩ := hv
    rcases List.mem_cons.mp hg with rfl | hg'
    · simp [List.lookup]
    · have hne : g.id ≠ g0.id := by
        intro he
        have h := validGates_id_not_mem gs (g0.id :: ds) hvt g hg'
        rw [he] at h
        simp at h
      have hb : (g.id == g0.id) = false := by simpa using hne
      have htail := ih (g0.id :: ds) hvt g hg'
      simpa [List.lookup, hb] using htail

lemma un_step (keys : Nat → Bool → Nat) (pbits : Nat → Bool)
    (tables : List (Nat × GTable)) (gid a : Nat)
    (t : Nat → Option Bool) (s : Nat → Option (Nat × Bool)) (va : Bool)
    (hta : t a = some va)
    (hInv : ∀ w v, t w = some v → s w = some (keys w v, xor (pbits w) v))
    (hLk : tables.lookup gid = some (garbleGate keys pbits ⟨gid, .NOT, [a]⟩)) :
    plainStep t ⟨gid, .NOT, [a]⟩ = updateS t gid (!va) ∧
      gevalGate tables s ⟨gid, .NOT, [a]⟩ =
        updateS s gid (keys gid (!va), xor (pbits gid) (!va)) := by
  have hsa := hInv a va hta
  constructor
  · simp [plainStep, readAll, hta, gateDenote]
  · rw [garbleGate_not] at hLk
    simp [gevalGate, hLk, readAll, hsa, decode1, xor_cancel_right, xor_cancel_mid,
      Bool.xor_comm]

lemma bin_step (keys : Nat → Bool → Nat) (pbits : Nat → Bool)
    (tables : List (Nat × GTable)) (gid : Nat) (ty : GateType) (a b : Nat)
    (hty : ty ≠ .NOT)
    (t : Nat → Option Bool) (s : Nat → Option (Nat × Bool)) (va vb : Bool)
    (hta : t a = some va) (htb : t b = some vb)
    (hInv : ∀ w v, t w = some v → s w = some (keys w v, xor (pbits w) v))
    (hLk : tables.lookup gid = some (garbleGate keys pbits ⟨gid, ty, [a, b]⟩)) :
    plainStep t ⟨gid, ty, [a, b]⟩ = updateS t gid (gateFun ty va vb) ∧
      gevalGate tables s ⟨gid, ty, [a, b]⟩ =
        updateS s gid
          (keys gid (gateFun ty va vb),
            xor (pbits gid) (gateFun ty va vb)) := by
  have hsa := hInv a va hta
  have hsb := hInv b vb htb
  constructor
  · simp [plainStep, readAll, hta, htb, gateDenote_pair ty va vb hty]
  · rw [garbleGate_pair] at hLk
    simp [gevalGate, hLk, readAll, hsa, hsb, decode2, xor_cancel_right, xor_cancel_mid,
      Bool.xor_comm]

lemma corr_aux (keys : Nat → Bool → Nat) (pbits : Nat → Bool)
    (tables : List (Nat × GTable)) (gs : List Gate) :
    ∀ (ds : List Nat) (t : Nat → Option Bool)
      (s : Nat → Option (Nat × Bool)),
    validGates ds gs = true →
    (∀ g ∈ gs, tables.lookup g.id = some (garbleGate keys pbits g)) →
    (∀ w ∈ ds, ∃ v, t w = some v) →
    (∀ w v, t w = some v → s w = some (keys w v, xor (pbits w) v)) →
    (∀ w v, (gs.foldl plainStep t) w = some v →
        (gs.foldl (gevalGate tables) s) w
          = some (keys w v, xor (pbits w) v)) ∧
      (∀ w ∈ declare ds gs, ∃ v, (gs.foldl plainStep t) w = some v) := by
  induction gs with
  | nil =>
    intro ds t s _ _ hDs hInv
    exact ⟨hInv, hDs⟩
  | cons g gs ih =>
    intro ds t s hv hLk hDs hInv
    obtain ⟨gid, gty, gins⟩ := g
    rw [validGates] at hv
    simp only [Bool.and_eq_true] at hv
    obtain ⟨⟨⟨hins, har⟩, _⟩, hvt⟩ := hv
    have hLkHead := hLk ⟨gid, gty, gins⟩ (List.mem_cons_self _ _)
    have hLkTail : ∀ g' ∈ gs,
        tables.lookup g'.id = some (garbleGate keys pbits g') :=
      fun g' hg' => hLk g' (List.mem_cons_of_mem _ hg')
    have hval : ∀ w ∈ gins, ∃ v, t w = some v := by
      intro w hw
      have := List.all_eq_true.mp hins w hw
      exact hDs w (by simpa using this)
    have hnext : ∀ (v' : Bool),
        plainStep t ⟨gid, gty, gins⟩ = updateS t gid v' →
        gevalGate tables s ⟨gid, gty, gins⟩ =
          updateS s gid (keys gid v', xor (pbits gid) v') →
        (∀ w v,
            (gs.foldl plainStep (plainStep t ⟨gid, gty, gins⟩)) w = some v →
            (gs.foldl (gevalGate tables)
                (gevalGate tables s ⟨gid, gty, gins⟩)) w
              = some (keys w v, xor (pbits w) v)) ∧
          (∀ w ∈ declare (gid :: ds) gs,
            ∃ v, (gs.foldl plainStep (plainStep t ⟨gid, gty, gins⟩)) w
              = some v) := by
      intro v' hpl hgev
      rw [hpl, hgev]
      refine ih (gid :: ds) (updateS t gid v') _ hvt hLkTail ?_ ?_
      · intro w hw
        by_cases hwg : w = gid
        · exact ⟨v', by simp [updateS, hwg]⟩
        · rcases List.mem_cons.mp hw with h | h
          · exact absurd h hwg
          · obtain ⟨v, hv⟩ := hDs w h
            exact ⟨v, by simp [updateS, hwg, hv]⟩
      · intro w v hwv
        by_cases hwg : w = gid
        · subst hwg
          simp only [updateS, if_pos rfl] at hwv ⊢
          obtain rfl : v' = v := by simpa using hwv
          rfl
        · simp only [updateS, if_neg hwg] at hwv ⊢
          exact hInv w v hwv
    simp only [List.foldl_cons]
    cases gty with
    | NOT =>
      rw [arityOk_not] at har
      obtain ⟨a, rfl⟩ := List.length_eq_one.mp (by simpa using har)
      obtain ⟨va, hta⟩ := hval a (by simp)
      obtain ⟨hpl, hgev⟩ :=
        un_step keys pbits tables gid a t s va hta hInv hLkHead
      exact hnext (!va) hpl hgev
    | AND =>
      rw [arityOk_bin _ _ _ (by simp)] at har
      obtain ⟨a, b, rfl⟩ := List.length_eq_two.mp (by simpa using har)
      obtain ⟨va, hta⟩ := hval a (by simp)
      obtain ⟨vb, htb⟩ := hval b (by simp)
      obtain ⟨hpl, hgev⟩ :=
        bin_step keys pbits tables gid .AND a b (by simp) t s va vb
          hta htb hInv hLkHead
      exact hnext (gateFun .AND va vb) hpl hgev
    | OR =>
      rw [arityOk_bin _ _ _ (by simp)] at har
      obtain ⟨a, b, rfl⟩ := List.length_eq_two.mp (by simpa using har)
      obtain ⟨va, hta⟩ := hval a (by simp)
      obtain ⟨vb, htb⟩ := hval b (by simp)
      obtain ⟨hpl, hgev⟩ :=
        bin_step keys pbits tables gid .OR a b (by simp) t s va vb
          hta htb hInv hLkHead
      exact hnext (gateFun .OR va vb) hpl hgev
    | XOR =>
      rw [arityOk_bin _ _ _ (by simp)] at har
      obtain ⟨a, b, rfl⟩ := List.length_eq_two.mp (by simpa using har)
      obtain ⟨va, hta⟩ := hval a (by simp)
      obtain ⟨vb, htb⟩ := hval b (by simp)
      obtain ⟨hpl, hgev⟩ :=
        bin_step keys pbits tables gid .XOR a b (by simp) t s va vb
          hta htb hInv hLkHead
      exact hnext (gateFun .XOR va vb) hpl hgev

lemma mem_contains {w : Nat} {l : List Nat} (h : w ∈ l) :
    l.contains w = true := by
  simpa using h

lemma plainInit_defined (c : Circuit) (A B : Nat → Bool) :
    ∀ w ∈ c.alice ++ c.bob, ∃ v, plainInit c A B w = some v := by
  intro w hw
  unfold plainInit
  by_cases ha : c.alice.contains w = true
  · exact ⟨A w, by rw [if_pos ha]⟩
  · have hb : c.bob.contains w = true := by
      rcases List.mem_append.mp hw with h | h
      · exact absurd (mem_contains h) ha
      · exact mem_contains h
    exact ⟨B w, by rw [if_neg ha, if_pos hb]⟩

lemma ginit_inv (keys : Nat → Bool → Nat) (pbits : Nat → Bool)
    (c : Circuit) (A B : Nat → Bool) :
    ∀ w v, plainInit c A B w = some v →
      ginit keys pbits c A B w = some (keys w v, xor (pbits w) v) := by
  intro w v hwv
  unfold plainInit at hwv
  unfold ginit
  by_cases ha : c.alice.contains w
  · rw [if_pos ha] at hwv ⊢
    obtain rfl : A w = v := by simpa using hwv
    rfl
  · rw [if_neg ha] at hwv ⊢
    by_cases hb : c.bob.contains w
    · rw [if_pos hb] at hwv ⊢
      obtain rfl : B w = v := by simpa using hwv
      rfl
    · rw [if_neg hb] at hwv
      cases hwv

lemma roundtrip_core (keys : Nat → Bool → Nat) (pbits : Nat → Bool)
    (c : Circuit) (A B : Nat → Bool) (tbls : List (Nat × GTable))
    (h : garble keys pbits c = .ok tbls)
    (pOut : Nat → Option Bool)
    (hagree : ∀ w ∈ c.out, pOut w = some (pbits w)) :
    evaluate c tbls pOut (ginit keys pbits c A B) = evalPlain c A B ∧
      ∀ w ∈ c.out, ∃ k e,
        (c.gates.foldl (gevalGate tbls) (ginit keys pbits c A B)) w
          = some (k, e) ∧
        (c.gates.foldl plainStep (plainInit c A B)) w
          = some (xor e (pbits w)) := by
  rw [garble] at h
  split at h
  case isFalse => cases h
  case isTrue hwf =>
  injection h with he
  subst he
  rw [wellFormed, Bool.and_eq_true] at hwf
  obtain ⟨hv, hout⟩ := hwf
  have hLk := lookup_garbled (garbleGate keys pbits) c.gates
    (c.alice ++ c.bob) hv
  obtain ⟨hInvF, hDsF⟩ :=
    corr_aux keys pbits _ c.gates (c.alice ++ c.bob)
      (plainInit c A B) (ginit keys pbits c A B) hv hLk
      (plainInit_defined c A B) (ginit_inv keys pbits c A B)
  have houtMem : ∀ w ∈ c.out, w ∈ declare (c.alice ++ c.bob) c.gates := by
    intro w hw
    have := List.all_eq_true.mp hout w hw
    simpa using this
  constructor
  · simp only [evaluate, evalPlain]
    apply List.map_congr_left
    intro w hw
    obtain ⟨v, hv'⟩ := hDsF w (houtMem w hw)
    have hs := hInvF w v hv'
    rw [hs, hagree w hw, hv']
    show some (xor (xor (pbits w) v) (pbits w)) = some v
    rw [xor_cancel_right]
  · intro w hw
    obtain ⟨v, hv'⟩ := hDsF w (houtMem w hw)
    have hs := hInvF w v hv'
    exact ⟨keys w v, xor (pbits w) v, hs, by rw [xor_cancel_right]; exact hv'⟩

/-- C1: for every circuit that garbles successfully (in particular every
well-formed circuit over AND, OR, XOR, NOT composed to any depth) and all
Garbler-input bits A and Evaluator-input bits B, obliviously evaluating
the garbled tables from the per-wire (key, external bit) input state,
decoding outputs with the output pbits, yields exactly the plaintext
evaluation of the circuit on (A, B). -/
theorem garble_evaluate_roundtrip (keys : Nat → Bool → Nat)
    (pbits : Nat → Bool) (c : Circuit) (A B : Nat → Bool)
    (tbls : List (Nat × GTable)) (h : garble keys pbits c = .ok tbls) :
    evaluate c tbls (pbitsOutOf pbits c) (ginit keys pbits c A B)
      = evalPlain c A B :=
  (roundtrip_core keys pbits c A B tbls h (pbitsOutOf pbits c)
    (fun w hw => by
      unfold pbitsOutOf
      rw [if_pos (mem_contains hw)])).1

/-- Witness for C1 on the depth-4 demonstration circuit exercising all
four gate types, with A 1 = true, B 2 = false. -/
theorem garble_evaluate_roundtrip_witness :
    garble demoKeys demoPbits demoC = .ok demoTbls ∧
      evaluate demoC demoTbls (pbitsOutOf demoPbits demoC)
          (ginit demoKeys demoPbits demoC (fun _ => true) (fun _ => false))
        = evalPlain demoC (fun _ => true) (fun _ => false) :=
  ⟨rfl,
    garble_evaluate_roundtrip demoKeys demoPbits demoC
      (fun _ => true) (fun _ => false) demoTbls rfl⟩

/-- C6: after all gates are processed, each Output wire's semantic bit is
recovered as the XOR of the wire's recovered external bit with the
transmitted output pbit (second conjunct), and any pbit map that agrees
with the true pbits on the Output wires — its values on all other wires
are arbitrary — already makes evaluation agree with the plaintext
evaluation (first conjunct): evaluation needs permutation bits only for
Output wires. -/
theorem evaluate_output_decoding (keys : Nat → Bool → Nat)
    (pbits : Nat → Bool) (c : Circuit) (A B : Nat → Bool)
    (tbls : List (Nat × GTable)) (h : garble keys pbits c = .ok tbls)
    (pOut : Nat → Option Bool)
    (hagree : ∀ w ∈ c.out, pOut w = some (pbits w)) :
    evaluate c tbls pOut (ginit keys pbits c A B) = evalPlain c A B ∧
      ∀ w ∈ c.out, ∃ k e,
        (c.gates.foldl (gevalGate tbls) (ginit keys pbits c A B)) w
          = some (k, e) ∧
        (c.gates.foldl plainStep (plainInit c A B)) w
          = some (xor e (pbits w)) :=
  roundtrip_core keys pbits c A B tbls h pOut hagree

/-- Witness for C6: a totally defined pbit map that agrees with the true
pbits only by construction on the output wires still decodes correctly. -/
theorem evaluate_output_decoding_witness :
    garble demoKeys demoPbits demoC = .ok demoTbls ∧
      evaluate demoC demoTbls (fun w => some (demoPbits w))
          (ginit demoKeys demoPbits demoC (fun _ => true) (fun _ => true))
        = evalPlain demoC (fun _ => true) (fun _ => true) :=
  ⟨rfl,
    (evaluate_output_decoding demoKeys demoPbits demoC
        (fun _ => true) (fun _ => true) demoTbls rfl
        (fun w => some (demoPbits w)) (fun _ _ => rfl)).1⟩

/-- C2 (the code evaluated at the failing input): the command line
`alice --no-oblivious-transfer` parses with the flag recorded, yet the
`oblivious_transfer` argument the entry point passes to `main` — and with
it the enabled flag handed on to `ot.ObliviousTransfer` — is still true:
the entry point calls `main(args.party, oblivious_transfer=True)`, so the
flag is ignored and oblivious transfer stays enabled. -/
theorem no_ot_flag_ignored :
    ∃ args,
      parseArgs ["alice", "--no-oblivious-transfer"] = some args ∧
        args.noOT = true ∧
        otArgPassedToMain args = true ∧
        otEnabledFlag (otArgPassedToMain args) = true :=
  ⟨⟨"alice", true⟩, rfl, rfl, rfl, rfl⟩

/-- C4: a successfully built entry, projected by `Alice.start` into the
bundle to send, carries exactly the circuit, the garbled tables, and the
output-restricted pbits; the bundle type has no key field at all, and its
pbit map is none on every non-Output wire and the true pbit on every
Output wire. -/
theorem bundle_exact_contents (keys : Nat → Bool → Nat)
    (pbits : Nat → Bool) (c : Circuit) (e : Entry)
    (h : mkEntry keys pbits c = .ok e) :
    toSend e = ⟨c, e.garbledTables, pbitsOutOf pbits c⟩ ∧
      (∀ w, c.out.contains w = false → (toSend e).pbitsOut w = none) ∧
      (∀ w ∈ c.out, (toSend e).pbitsOut w = some (pbits w)) := by
  unfold mkEntry at h
  cases hg : garble keys pbits c with
  | error err =>
    rw [hg] at h
    cases h
  | ok tbls =>
    rw [hg] at h
    injection h with he
    subst he
    refine ⟨rfl, ?_, ?_⟩
    · intro w hw
      have hnm : w ∉ c.out := by simpa using hw
      simp [toSend, pbitsOutOf, hnm]
    · intro w hw
      simp [toSend, pbitsOutOf, hw]

/-- Witness for C4 on the demonstration circuit: wire 5 is internal, so
no pbit for it is in the bundle; wire 6 is the output wire. -/
theorem bundle_exact_contents_witness :
    mkEntry demoKeys demoPbits demoC = .ok demoEntry ∧
      toSend demoEntry
        = ⟨demoC, demoEntry.garbledTables, pbitsOutOf demoPbits demoC⟩ ∧
      (toSend demoEntry).pbitsOut 5 = none ∧
      (toSend demoEntry).pbitsOut 6 = some (demoPbits 6) := by
  have h := bundle_exact_contents demoKeys demoPbits demoC demoEntry rfl
  exact ⟨rfl, h.1, h.2.1 5 rfl, h.2.2 6 (by decide)⟩

lemma validGates_topo (gs : List Gate) :
    ∀ ds : List Nat, validGates ds gs = true →
      ∀ i (hi : i < gs.length), ∀ w ∈ (gs.get ⟨i, hi⟩).ins,
        w ∈ ds ∨ w ∈ (gs.take i).map Gate.id := by
  induction gs with
  | nil =>
    intro ds _ i hi
    exact absurd hi (Nat.not_lt_zero i)
  | cons g gs ih =>
    intro ds hv i hi w hw
    rw [validGates] at hv
    simp only [Bool.and_eq_true] at hv
    obtain ⟨⟨⟨hins, _⟩, _⟩, hvt⟩ := hv
    cases i with
    | zero =>
      left
      have := List.all_eq_true.mp hins w hw
      simpa using this
    | succ i =>
      have hi' : i < gs.length := Nat.lt_of_succ_lt_succ hi
      have h := ih (g.id :: ds) hvt i hi' w (by simpa using hw)
      rcases h with h | h
      · rcases List.mem_cons.mp h with rfl | h2
        · right
          simp
        · left
          exact h2
      · right
        simp only [List.take, List.map]
        exact List.mem_cons_of_mem _ h

/-- C7: a circuit in which some gate reads a wire not declared strictly
before it — the case both for a dangling (never-declared) wire reference
and for a cyclic dependency, where some gate must read its own or a later
gate's output — is rejected at garble time with CircuitMalformed: garbling
produces no tables, and Alice's flow (which garbles in `__init__`, before
`start` sends anything) yields no bundle, so no protocol message carries
any garbled state. -/
theorem garble_rejects_malformed (keys : Nat → Bool → Nat)
    (pbits : Nat → Bool) (c : Circuit)
    (h : ∃ i, ∃ hi : i < c.gates.length,
        ∃ w ∈ (c.gates.get ⟨i, hi⟩).ins, w ∉ declaredBefore c i) :
    garble keys pbits c = .error .CircuitMalformed ∧
      aliceRun keys pbits c = .error .CircuitMalformed ∧
      ∀ tbls, garble keys pbits c ≠ .ok tbls := by
  obtain ⟨i, hi, w, hw, hnd⟩ := h
  have hwf : wellFormed c = false := by
    cases hq : wellFormed c
    · rfl
    · exfalso
      rw [wellFormed, Bool.and_eq_true] at hq
      obtain ⟨hv, _⟩ := hq
      have hmem := validGates_topo c.gates (c.alice ++ c.bob) hv i hi w hw
      apply hnd
      unfold declaredBefore
      simp only [List.mem_append] at hmem ⊢
      tauto
  have hg : garble keys pbits c = .error .CircuitMalformed := by
    rw [garble, if_neg]
    simp [hwf]
  refine ⟨hg, ?_, ?_⟩
  · unfold aliceRun mkEntry
    rw [hg]
    rfl
  · intro tbls hcon
    rw [hg] at hcon
    cases hcon

/-- Witness for C7: the single gate of `badC` reads the undeclared
wire 99. -/
theorem garble_rejects_malformed_witness :
    (99 ∉ declaredBefore badC 0) ∧
      garble demoKeys demoPbits badC = .error .CircuitMalformed ∧
      aliceRun demoKeys demoPbits badC = .error .CircuitMalformed := by
  have h := garble_rejects_malformed demoKeys demoPbits badC
    ⟨0, by decide, 99, by decide, by decide⟩
  exact ⟨by decide, h.1, h.2.1⟩

lemma otWires_append (ms ns : List Msg) :
    otWires (ms ++ ns) = otWires ms ++ otWires ns := by
  induction ms with
  | nil => rfl
  | cons m ms ih => cases m <;> simp [otWires, ih]

lemma directWires_append (ms ns : List Msg) :
    directWires (ms ++ ns) = directWires ms ++ directWires ns := by
  induction ms with
  | nil => rfl
  | cons m ms ih => cases m <;> simp [directWires, ih]

lemma otWires_direct_map (l : List (Nat × (Nat × Bool))) :
    otWires (l.map (fun e => Msg.direct e.1 e.2)) = [] := by
  induction l with
  | nil => rfl
  | cons e l ih => simp [otWires, ih]

lemma otWires_viaOT_map (l : List (Nat × ((Nat × Bool) × (Nat × Bool)))) :
    otWires (l.map (fun e => Msg.viaOT e.1 e.2)) = l.map Prod.fst := by
  induction l with
  | nil => rfl
  | cons e l ih => simp [otWires, ih]

lemma directWires_direct_map (l : List (Nat × (Nat × Bool))) :
    directWires (l.map (fun e => Msg.direct e.1 e.2)) = l.map Prod.fst := by
  induction l with
  | nil => rfl
  | cons e l ih => simp [directWires, ih]

lemma directWires_viaOT_map
    (l : List (Nat × ((Nat × Bool) × (Nat × Bool)))) :
    directWires (l.map (fun e => Msg.viaOT e.1 e.2)) = [] := by
  induction l with
  | nil => rfl
  | cons e l ih => simp [directWires, ih]

lemma mem_bKeysOf_fst (keysL : List (Nat × (Nat × Nat)))
    (pbits : Nat → Bool) (bW : List Nat) (w : Nat) :
    w ∈ (bKeysOf keysL pbits bW).map Prod.fst ↔
      w ∈ keysL.map Prod.fst ∧ w ∈ bW := by
  unfold bKeysOf
  constructor
  · intro h
    obtain ⟨p, hp, hpw⟩ := List.mem_map.mp h
    obtain ⟨e, he, hfe⟩ := List.mem_filterMap.mp hp
    by_cases hb : bW.contains e.1 = true
    · rw [if_pos hb] at hfe
      injection hfe with hfe
      subst hfe
      subst hpw
      exact ⟨List.mem_map.mpr ⟨e, he, rfl⟩, by simpa using hb⟩
    · rw [if_neg hb] at hfe
      cases hfe
  · rintro ⟨h1, h2⟩
    obtain ⟨e, he, rfl⟩ := List.mem_map.mp h1
    refine List.mem_map.mpr
      ⟨(e.1, getEncrBits (pbits e.1) e.2.1 e.2.2), ?_, rfl⟩
    exact List.mem_filterMap.mpr ⟨e, he, by rw [if_pos (mem_contains h2)]⟩

/-- C3: in the modelled `ot.get_result(a_inputs, b_keys)` exchange, the
wires routed through the OT sub-protocol are exactly the circuit's
bob-partition wires (given that the keys dict covers every bob wire, as
the garbler's full per-wire dict does), while every alice-partition wire
is handed over directly and never appears in any OT transfer. -/
theorem ot_routes_only_bob_wires (keysL : List (Nat × (Nat × Nat)))
    (entryKeys : Nat → Nat × Nat) (pbits : Nat → Bool) (bits : Nat → Bool)
    (aW bW : List Nat)
    (hbw : ∀ w ∈ bW, w ∈ keysL.map Prod.fst)
    (hdisj : ∀ w ∈ aW, w ∉ bW) :
    (∀ w,
        w ∈ otWires (getResultMsgs
            (aliceInputsOf entryKeys pbits bits aW)
            (bKeysOf keysL pbits bW)) ↔ w ∈ bW) ∧
      ∀ w ∈ aW,
        w ∈ directWires (getResultMsgs
            (aliceInputsOf entryKeys pbits bits aW)
            (bKeysOf keysL pbits bW)) ∧
          w ∉ otWires (getResultMsgs
            (aliceInputsOf entryKeys pbits bits aW)
            (bKeysOf keysL pbits bW)) := by
  have hot : otWires (getResultMsgs
      (aliceInputsOf entryKeys pbits bits aW) (bKeysOf keysL pbits bW))
      = (bKeysOf keysL pbits bW).map Prod.fst := by
    unfold getResultMsgs
    rw [otWires_append, otWires_direct_map, otWires_viaOT_map]
    rfl
  have hdir : directWires (getResultMsgs
      (aliceInputsOf entryKeys pbits bits aW) (bKeysOf keysL pbits bW))
      = (aliceInputsOf entryKeys pbits bits aW).map Prod.fst := by
    unfold getResultMsgs
    rw [directWires_append, directWires_direct_map, directWires_viaOT_map,
      List.append_nil]
  have hdomA : (aliceInputsOf entryKeys pbits bits aW).map Prod.fst = aW := by
    simp [aliceInputsOf]
    exact List.map_id aW
  constructor
  · intro w
    rw [hot, mem_bKeysOf_fst]
    exact ⟨fun h => h.2, fun h => ⟨hbw w h, h⟩⟩
  · intro w hw
    constructor
    · rw [hdir, hdomA]
      exact hw
    · rw [hot, mem_bKeysOf_fst]
      rintro ⟨-, h2⟩
      exact hdisj w hw h2

/-- Witness for C3: keys dict over wires 1 and 2, bob partition [2],
alice partition [1]. -/
theorem ot_routes_only_bob_wires_witness :
    (∀ w ∈ [2],
        w ∈ ([(1, (10, 11)), (2, (20, 21))] :
          List (Nat × (Nat × Nat))).map Prod.fst) ∧
      2 ∈ otWires (getResultMsgs
          (aliceInputsOf (fun _ => (0, 0)) (fun _ => false)
            (fun _ => false) [1])
          (bKeysOf [(1, (10, 11)), (2, (20, 21))] (fun _ => false) [2])) ∧
      1 ∉ otWires (getResultMsgs
          (aliceInputsOf (fun _ => (0, 0)) (fun _ => false)
            (fun _ => false) [1])
          (bKeysOf [(1, (10, 11)), (2, (20, 21))] (fun _ => false) [2])) ∧
      1 ∈ directWires (getResultMsgs
          (aliceInputsOf (fun _ => (0, 0)) (fun _ => false)
            (fun _ => false) [1])
          (bKeysOf [(1, (10, 11)), (2, (20, 21))] (fun _ => false) [2])) := by
  have h := ot_routes_only_bob_wires [(1, (10, 11)), (2, (20, 21))]
    (fun _ => (0, 0)) (fun _ => false) (fun _ => false) [1] [2]
    (by decide) (by decide)
  exact ⟨by decide, (h.1 2).mpr (by decide), (h.2 1 (by decide)).2,
    (h.2 1 (by decide)).1⟩

/-- C5: the external bit transmitted with a wire payload equals the
semantic value XOR the wire's pbit: `_get_encr_bits` yields exactly
((key0, 0 XOR pbit), (key1, 1 XOR pbit)); selecting the entry for a value
v yields (key for v, v XOR pbit); and the pair `get_alice_inputs` builds
for a chosen bit carries external bit value XOR pbit. -/
theorem external_bit_is_value_xor_pbit (pbit : Bool) (k0 k1 : Nat)
    (entryKeys : Nat → Nat × Nat) (pbits bits : Nat → Bool)
    (aW : List Nat) :
    getEncrBits pbit k0 k1 = ((k0, xor false pbit), (k1, xor true pbit)) ∧
      (∀ v : Bool,
        cond v (getEncrBits pbit k0 k1).2 (getEncrBits pbit k0 k1).1
          = (cond v k1 k0, xor v pbit)) ∧
      ∀ w ∈ aW,
        (w, (cond (bits w) (entryKeys w).2 (entryKeys w).1,
          xor (bits w) (pbits w)))
          ∈ aliceInputsOf entryKeys pbits bits aW := by
  refine ⟨rfl, ?_, ?_⟩
  · intro v
    cases v <;> rfl
  · intro w hw
    unfold aliceInputsOf
    refine List.mem_map.mpr ⟨w, hw, ?_⟩
    cases hb : bits w <;> cases hp : pbits w <;> rfl

/-- Witness for C5 at pbit = true, keys (5, 9), one alice wire 3 with
chosen bit true. -/
theorem external_bit_is_value_xor_pbit_witness :
    getEncrBits true 5 9 = ((5, xor false true), (9, xor true true)) ∧
      (3, (cond true 9 5, xor true true))
        ∈ aliceInputsOf (fun _ => (5, 9)) (fun _ => true)
            (fun _ => true) [3] := by
  have h := external_bit_is_value_xor_pbit true 5 9 (fun _ => (5, 9))
    (fun _ => true) (fun _ => true) [3]
  exact ⟨h.1, h.2.2 3 (by decide)⟩

lemma foldl_trace_acc (es : List GarbledBundle) :
    ∀ acc : List BobAction,
      es.foldl (fun a e => a ++ processEntry e) acc
        = acc ++ es.foldl (fun a e => a ++ processEntry e) [] := by
  induction es with
  | nil =>
    intro acc
    simp
  | cons e es ih =>
    intro acc
    simp only [List.foldl_cons]
    rw [ih (acc ++ processEntry e), ih ([] ++ processEntry e)]
    simp [List.append_assoc]

lemma listenTrace_cons (e : GarbledBundle) (es : List GarbledBundle) :
    listenTrace (e :: es)
      = .ack true :: .evalSent e :: listenTrace es := by
  unfold listenTrace
  simp only [List.foldl_cons]
  rw [foldl_trace_acc]
  rfl

/-- C8: Bob's listen loop acknowledges every received bundle with True
before that bundle's evaluation result is sent, and bundles are processed
strictly one at a time in arrival order: the trace over the received
bundles is exactly ack, evaluation, ack, evaluation, ..., bundle i's two
actions sitting at positions 2i and 2i+1. -/
theorem listen_ack_before_eval (es : List GarbledBundle) :
    (listenTrace es).length = 2 * es.length ∧
      ∀ i e, es[i]? = some e →
        (listenTrace es)[2 * i]? = some (.ack true) ∧
          (listenTrace es)[2 * i + 1]? = some (.evalSent e) := by
  induction es with
  | nil =>
    refine ⟨rfl, ?_⟩
    intro i e h
    simp at h
  | cons e0 es ih =>
    rw [listenTrace_cons]
    constructor
    · simp only [List.length_cons, ih.1]
      ring
    · intro i e h
      cases i with
      | zero =>
        obtain rfl : e0 = e := by simpa using h
        exact ⟨by simp, by simp⟩
      | succ i =>
        have h' : es[i]? = some e := by simpa using h
        have hh := ih.2 i e h'
        have e1 : 2 * (i + 1) = 2 * i + 1 + 1 := by ring
        rw [e1]
        simpa [List.getElem?_cons_succ] using hh

/-- Witness for C8 on the single-bundle stream holding the demonstration
bundle. -/
theorem listen_ack_before_eval_witness :
    ([toSend demoEntry] : List GarbledBundle)[0]? = some (toSend demoEntry) ∧
      (listenTrace [toSend demoEntry]).length = 2 ∧
      (listenTrace [toSend demoEntry])[0]? = some (.ack true) ∧
      (listenTrace [toSend demoEntry])[1]?
        = some (.evalSent (toSend demoEntry)) := by
  have h := listen_ack_before_eval [toSend demoEntry]
  have h2 := h.2 0 (toSend demoEntry) rfl
  exact ⟨rfl, h.1, h2.1, h2.2⟩

lemma readBit_valid (stream : List (Option Int)) :
    ∀ v rest, readBit stream = some (v, rest) → v = 0 ∨ v = 1 := by
  induction stream with
  | nil =>
    intro v rest h
    cases h
  | cons o os ih =>
    intro v rest h
    cases o with
    | none => exact ih v rest (by simpa [readBit] using h)
    | some x =>
      rw [readBit] at h
      by_cases hx : x = 0 ∨ x = 1
      · rw [if_pos hx] at h
        injection h with h
        injection h with h1 h2
        subst h1
        exact hx
      · rw [if_neg hx] at h
        exact ih v rest h

/-- C9: whenever the interactive collection loop of `get_alice_inputs` /
`get_bob_inputs` returns a binding list, it binds exactly the party's own
wires, in order, each to a value in the set 0, 1 — every other entered
value (out-of-range int or unparsable line) having been rejected and
re-prompted. -/
theorem inputs_total_bits (wires : List Nat) :
    ∀ (stream : List (Option Int)) (m : List (Nat × Int)),
      collectInputs wires stream = some m →
        m.map Prod.fst = wires ∧ ∀ p ∈ m, p.2 = 0 ∨ p.2 = 1 := by
  induction wires with
  | nil =>
    intro stream m h
    simp only [collectInputs] at h
    injection h with h
    subst h
    exact ⟨rfl, by simp⟩
  | cons w ws ih =>
    intro stream m h
    simp only [collectInputs] at h
    split at h
    next v rest hr =>
      cases hc : collectInputs ws rest with
      | none =>
        rw [hc] at h
        cases h
      | some m' =>
        rw [hc] at h
        simp only [Option.map_some'] at h
        injection h with h
        subst h
        obtain ⟨h1, h2⟩ := ih rest m' hc
        refine ⟨by simp [h1], ?_⟩
        intro p hp
        rcases List.mem_cons.mp hp with rfl | hp'
        · exact readBit_valid stream v rest hr
        · exact h2 p hp'
    next hr =>
      cases h

/-- Witness for C9: wires 4 and 5, with an out-of-range entry and a
parse failure rejected before the valid bits 1 and 0. -/
theorem inputs_total_bits_witness :
    collectInputs [4, 5] [some 7, none, some 1, some 0]
        = some [(4, 1), (5, 0)] ∧
      ([((4 : Nat), (1 : Int)), (5, 0)].map Prod.fst = [4, 5] ∧
        ∀ p ∈ [((4 : Nat), (1 : Int)), (5, 0)], p.2 = 0 ∨ p.2 = 1) := by
  have h := inputs_total_bits [4, 5] [some 7, none, some 1, some 0]
    [(4, 1), (5, 0)] rfl
  exact ⟨rfl, h⟩

/-- C10: reconstructing a received key payload of n bytes as the pair
(payload take n div 2, payload drop n div 2): the two components always
concatenate back to exactly the received payload, and the first component
has length n div 2. -/
theorem split_key_payload_exact (data : List Nat) :
    (splitKeyPayload data).1 ++ (splitKeyPayload data).2 = data ∧
      (splitKeyPayload data).1.length = data.length / 2 := by
  refine ⟨List.take_append_drop _ _, ?_⟩
  simp only [splitKeyPayload, List.length_take]
  omega

end Yao
